import Mathlib

/-!
# Verification of `src/Vizing/vizing_main.py`

A shallow embedding of the edge-coloring program in `vizing_main.py`,
together with proofs and refutations of the specification's claims.

Modelling conventions:

* Python `dict`s keyed by colors (`Vertex.colors`, a `defaultdict(int)`)
  become association lists `List (Nat × Int)`.  Assignment updates the
  existing entry in place or appends a fresh one at the end, exactly as a
  Python dict does; `del` removes the entry.  Counts are `Int` because
  Python integers may go negative on a stray decrement.
* The `vertices` dict of `Multigraph` becomes a list of vertex ids (the
  dict's insertion-ordered key view, used only by the `max` in
  `edge_coloring`) plus a total function `vcolors : Int → ColorMap`
  giving each vertex's `colors` dict (empty for ids never added).  The
  function view makes the aliasing in `color_with` (both endpoints of a
  self-loop are the same `Vertex` object) automatic.
* `Vertex.edges` is maintained by `Multigraph.add_edge` to be exactly the
  set of edges having this vertex as an endpoint (edges are distinct
  objects, a self-loop is inserted once), so it is modelled as the derived
  list `incidentEdges`.  `Vertex.missing_cache` is recomputed at the start
  of every `missing_colors()` call, so `missing_colors` is modelled as the
  pure computation `palette - keys(colors)`.
* Python `set`s of colors become `Finset Nat`; the only observations the
  program makes (`min`, `max`, `&`, `-`, `add`, truthiness) are
  order-insensitive, so the unspecified iteration order of a Python set is
  irrelevant.
* Operations that can raise (`max()` on an empty sequence, the failure at
  the end of `recolor_edges`) return `Except String`.
-/

/-- A Python `dict` from colors to (possibly negative) counts, as an
association list in insertion order. -/
abbrev ColorMap := List (Nat × Int)

/-- Dictionary lookup: the value at key `c`, if present. -/
def cmLookup : ColorMap → Nat → Option Int
  | [], _ => none
  | (k, v) :: t, c => if k = c then some v else cmLookup t c

/-- `defaultdict(int)` read: the value at key `c`, defaulting to `0`. -/
def cmGet (m : ColorMap) (c : Nat) : Int := (cmLookup m c).getD 0

/-- Dictionary assignment `m[c] = k`: update the entry in place if the key
exists (keys are unique in every dict the program builds, so replacing the
first occurrence is the in-place update), otherwise append a fresh entry
at the end, as a Python dict does. -/
def cmSet : ColorMap → Nat → Int → ColorMap
  | [], c, k => [(c, k)]
  | (a, b) :: t, c, k => if a = c then (c, k) :: t else (a, b) :: cmSet t c k

/-- Dictionary deletion `del m[c]`. -/
def cmErase : ColorMap → Nat → ColorMap
  | [], _ => []
  | (k, v) :: t, c => if k = c then cmErase t c else (k, v) :: cmErase t c

/-- The dict's key view `m.keys()`. -/
def cmKeys (m : ColorMap) : List Nat := m.map Prod.fst

/-- The sum of the dict's values (the total incidence count of a vertex). -/
def cmSum (m : ColorMap) : Int := (m.map Prod.snd).sum

/-- An `Edge` of the multigraph: identifier, the two endpoint vertex ids,
the multiplicity tag and the current color (`0` = uncolored).
Mirrors `class Edge` of `vizing_main.py` (the back-reference `G` is the
ambient `Multigraph` value in the embedding). -/
structure Edge where
  ident : Int
  x : Int
  y : Int
  mult : Int
  color : Nat
  deriving DecidableEq

/-- The `Multigraph`: vertex ids in insertion order, the per-vertex color
dicts, the edge list in insertion order, the color palette `self.colors`
and the write-only `_edge_lookup` counter. -/
structure Multigraph where
  vertexIds : List Int
  vcolors : Int → ColorMap
  edges : List Edge
  colors : Finset Nat
  edgeLookup : Int × Int → Int

/-- `Multigraph.__init__`: everything empty. -/
def Multigraph.empty : Multigraph :=
  { vertexIds := []
    vcolors := fun _ => []
    edges := []
    colors := ∅
    edgeLookup := fun _ => 0 }

/-- Replace one vertex's color dict (mutation of a `Vertex` object through
any of the references to it). -/
def Multigraph.updV (g : Multigraph) (vid : Int) (f : ColorMap → ColorMap) :
    Multigraph :=
  { g with vcolors := fun w => if w = vid then f (g.vcolors w) else g.vcolors w }

/-- `Multigraph.add_vertex`: create the vertex if its id is new (a fresh
`Vertex` has an empty colors dict, which `vcolors` already yields). -/
def Multigraph.addVertex (g : Multigraph) (ident : Int) : Multigraph :=
  if ident ∈ g.vertexIds then g
  else { g with vertexIds := g.vertexIds ++ [ident] }

/-- `Multigraph.add_edge`: add both endpoints, append the uncolored edge,
record it in both endpoints' incident sets (derived here) and bump
`_edge_lookup` at the sorted endpoint pair. -/
def Multigraph.addEdge (g : Multigraph) (ident x y m : Int) : Multigraph :=
  let g := (g.addVertex x).addVertex y
  let key := (min x y, max x y)
  { g with
    edges := g.edges ++ [{ ident := ident, x := x, y := y, mult := m, color := 0 }]
    edgeLookup := fun p => if p = key then g.edgeLookup p + 1 else g.edgeLookup p }

/-- Build a `Multigraph` from an ordered list of `(ident, x, y, m)` edge
records, as `main` does. -/
def buildGraph (rs : List (Int × Int × Int × Int)) : Multigraph :=
  rs.foldl (fun g r => g.addEdge r.1 r.2.1 r.2.2.1 r.2.2.2) Multigraph.empty

/-- The edges incident to vertex `vid` (the contents of `Vertex.edges`, in
edge insertion order). -/
def incidentEdges (g : Multigraph) (vid : Int) : List Edge :=
  g.edges.filter (fun e => e.x == vid || e.y == vid)

/-- `Vertex.degree`: the number of incident edges. -/
def degreeOf (g : Multigraph) (vid : Int) : Nat := (incidentEdges g vid).length

/-- `Vertex.missing_colors`: the palette minus the keys of the colors
dict. -/
def missingColorsAt (g : Multigraph) (vid : Int) : Finset Nat :=
  g.colors \ (cmKeys (g.vcolors vid)).toFinset

/-- `max(v.degree() for v in self.vertices.values())`: `none` models the
`ValueError` Python raises when the graph has no vertices. -/
def maxDegree (g : Multigraph) : Option Nat :=
  match g.vertexIds with
  | [] => none
  | v :: vs => some ((vs.map (fun w => degreeOf g w)).foldl max (degreeOf g v))

/-- One `colors[c] = colors.get(c, 0) + 1` step of `color_with`. -/
def bumpColor (m : ColorMap) (c : Nat) : ColorMap := cmSet m c (cmGet m c + 1)

/-- One `colors[c] -= 1` step of `color_with` (a `defaultdict`, so an
absent key is created at `0` first). -/
def dropColor (m : ColorMap) (c : Nat) : ColorMap := cmSet m c (cmGet m c - 1)

/-- The `if colors[c] == 0: del colors[c]` pruning step of `color_with`
(reading a `defaultdict` inserts `0` for an absent key and the entry is
then deleted again, so absent keys stay absent). -/
def pruneZero (m : ColorMap) (c : Nat) : ColorMap :=
  if cmGet m c = 0 then cmErase m c else m

/-- `Edge.color_with(c)`: if the edge is colored, decrement both
endpoints' counts of the old color and prune zero entries; then set the
color and increment both endpoints' counts of `c`.  Returns the updated
graph and edge. -/
def colorWith (g : Multigraph) (e : Edge) (c : Nat) : Multigraph × Edge :=
  let g :=
    if e.color ≠ 0 then
      let g := g.updV e.x (fun m => dropColor m e.color)
      let g := g.updV e.y (fun m => dropColor m e.color)
      let g := g.updV e.x (fun m => pruneZero m e.color)
      let g := g.updV e.y (fun m => pruneZero m e.color)
      g
    else g
  let g := g.updV e.x (fun m => bumpColor m c)
  let g := g.updV e.y (fun m => bumpColor m c)
  (g, { e with color := c })

/-- Apply `color_with c` to the edge at position `i` of the edge list. -/
def setEdgeColor (g : Multigraph) (i : Nat) (c : Nat) : Multigraph :=
  match g.edges[i]? with
  | none => g
  | some e =>
    let ge := colorWith g e c
    { ge.1 with edges := ge.1.edges.set i ge.2 }

/-- One iteration of the `for edge in self.edges` loop of
`edge_coloring`: intersect the endpoints' missing colors; if non-empty
color with the minimum, else color with `max(self.colors) + 1` after
adding it to the palette (the `max` errors if the palette is empty). -/
def colorStep (g : Multigraph) (i : Nat) : Except String Multigraph :=
  match g.edges[i]? with
  | none => .ok g
  | some e =>
    let available := missingColorsAt g e.x ∩ missingColorsAt g e.y
    if h : available.Nonempty then
      .ok (setEdgeColor g i (available.min' h))
    else
      match g.colors.max with
      | ⊥ => .error "max() arg is an empty sequence"
      | some mc =>
        let g := { g with colors := insert (mc + 1) g.colors }
        .ok (setEdgeColor g i (mc + 1))

/-- The edge loop of `edge_coloring`, processing indices `i`, `i+1`, …
(the fuel is the number of remaining iterations; `edge_coloring` passes
the length of the edge list, which `colorStep` preserves). -/
def colorLoop : Nat → Multigraph → Nat → Except String Multigraph
  | 0, g, _ => .ok g
  | fuel + 1, g, i =>
    if i < g.edges.length then
      match colorStep g i with
      | .error s => .error s
      | .ok g' => colorLoop fuel g' (i + 1)
    else .ok g

/-- `Multigraph.edge_coloring`: compute Δ (error on a vertexless graph),
set the palette to `{1, …, Δ+1}`, then run the edge loop. -/
def edgeColoring (g : Multigraph) : Except String Multigraph :=
  match maxDegree g with
  | none => .error "max() arg is an empty sequence"
  | some delta =>
    let g := { g with colors := Finset.Icc 1 (delta + 1) }
    colorLoop g.edges.length g 0

/-- `Vertex.with_color(c)`: the first incident edge colored `c`, if any,
returned with its index in the edge list (Python iterates the `edges`
set in unspecified order; edge insertion order is used here, and in the
runs considered below at most one incident edge matches). -/
def withColorIdx (g : Multigraph) (vid : Int) (c : Nat) : Option Nat :=
  g.edges.findIdx? (fun e => (e.x == vid || e.y == vid) && e.color == c)

/-- Modelled from the spec: `Edge.other` is called by `recolor_edges` but
no such method exists in the source (`class Edge` only has `color_with`);
§4.2 specifies `other_endpoint(v)` as the endpoint opposite to `v`.  The
InvalidGraph failure case of §4.2 is unreachable here because
`recolor_edges` only calls it with an incident vertex. -/
def otherEndpoint (e : Edge) (vid : Int) : Int := if e.x = vid then e.y else e.x

/-- The state of the BFS inside `recolor_edges`: the queue of
`(vertex, parent_edge_color)` pairs, the visited set and the (write-only)
`parent_color_map`. -/
structure RecolorState where
  queue : List (Int × Option Nat)
  visited : List Int
  parentColorMap : List (Int × Nat)

/-- The `while queue` loop of `recolor_edges`, with explicit fuel (the
loop can only run finitely often since each iteration either consumes a
queue entry of a visited vertex or visits a new vertex, but the embedding
makes the bound explicit).  Mirrors the body line by line: pop, skip
visited, test `new_color in missing_colors` and recolor the parent edge
by a **direct field assignment** (`edge_to_recolor.color = new_color`,
not `color_with`), else enqueue the neighbors across edges whose color
differs from the parent color. -/
def recolorLoop (g : Multigraph) (newColor : Nat) :
    Nat → RecolorState → Except String Multigraph
  | 0, _ => .error "out of fuel"
  | _ + 1, { queue := [], .. } =>
    .error "Recoloring failed: No valid path found."
  | fuel + 1, { queue := (cur, parentColor) :: rest, visited, parentColorMap } =>
    if cur ∈ visited then
      recolorLoop g newColor fuel
        { queue := rest, visited := visited, parentColorMap := parentColorMap }
    else
      let visited := visited ++ [cur]
      if newColor ∈ missingColorsAt g cur then
        match parentColor with
        | none => .ok g
        | some pc =>
          match withColorIdx g cur pc with
          | none => .error "AttributeError: NoneType object has no attribute color"
          | some i =>
            match g.edges[i]? with
            | none => .error "index out of range"
            | some e => .ok { g with edges := g.edges.set i { e with color := newColor } }
      else
        let nexts := (incidentEdges g cur).filter
          (fun e => match parentColor with
                    | none => true
                    | some pc => e.color != pc)
        let queue := rest ++ nexts.map (fun e => (otherEndpoint e cur, some e.color))
        let parentColorMap := parentColorMap ++
          nexts.map (fun e => (otherEndpoint e cur, e.color))
        recolorLoop g newColor fuel
          { queue := queue, visited := visited, parentColorMap := parentColorMap }

/-- `recolor_edges(self, u, v, new_color)` (the parameter `v` is accepted
but never used by the body). -/
def recolorEdges (g : Multigraph) (u : Int) (v : Int) (newColor : Nat)
    (fuel : Nat) : Except String Multigraph :=
  let _ := v
  recolorLoop g newColor fuel
    { queue := [(u, none)], visited := [], parentColorMap := [] }

/-! ## Counting incidences and the consistency invariant -/

/-- The number of edges whose `x` endpoint is `vid` and whose color is
`c`. -/
def countX (es : List Edge) (vid : Int) (c : Nat) : Nat :=
  es.countP (fun e => e.x == vid && e.color == c)

/-- The number of edges whose `y` endpoint is `vid` and whose color is
`c`. -/
def countY (es : List Edge) (vid : Int) (c : Nat) : Nat :=
  es.countP (fun e => e.y == vid && e.color == c)

/-- How often `color_with` has incremented `vid`'s count of color `c`:
once per endpoint slot, so a self-loop contributes twice. -/
def countInc (es : List Edge) (vid : Int) (c : Nat) : Nat :=
  countX es vid c + countY es vid c

/-- The total number of endpoint slots at `vid` carried by colored edges
(a colored self-loop again contributes twice). -/
def countColored (es : List Edge) (vid : Int) : Nat :=
  es.countP (fun e => e.x == vid && e.color != 0) +
    es.countP (fun e => e.y == vid && e.color != 0)

/-- The number of self-loop edges at `vid`. -/
def selfLoopsAt (es : List Edge) (vid : Int) : Nat :=
  es.countP (fun e => e.x == vid && e.y == vid)

/-- Two edges share an endpoint. -/
def sharesEndpoint (e f : Edge) : Prop :=
  e.x = f.x ∨ e.x = f.y ∨ e.y = f.x ∨ e.y = f.y

instance (e f : Edge) : Decidable (sharesEndpoint e f) := by
  unfold sharesEndpoint
  infer_instance

/-- The coloring of `es` is proper on its colored edges: two distinct
edges sharing an endpoint never carry the same nonzero color. -/
def ProperAt (es : List Edge) : Prop :=
  ∀ i, ∀ hi : i < es.length, ∀ j, ∀ hj : j < es.length,
    i ≠ j → sharesEndpoint es[i] es[j] →
      es[i].color ≠ 0 → es[j].color ≠ 0 → es[i].color ≠ es[j].color

/-- The consistency invariant maintained by `edge_coloring`: the palette
is a nonempty set of positive colors, every assigned color lies in the
palette, every vertex's colors dict holds exactly the incidence counts of
its colored edges (present keys are exactly the colors with a nonzero
count and the values sum to the number of colored endpoint slots), and
the coloring is proper. -/
structure Consistent (g : Multigraph) : Prop where
  palette_pos : ∀ c ∈ g.colors, 1 ≤ c
  palette_ne : g.colors.Nonempty
  edge_colors : ∀ e ∈ g.edges, e.color = 0 ∨ e.color ∈ g.colors
  counts : ∀ vid c, c ≠ 0 → cmGet (g.vcolors vid) c = (countInc g.edges vid c : Int)
  keys_iff : ∀ vid c, c ≠ 0 →
    (c ∈ cmKeys (g.vcolors vid) ↔ countInc g.edges vid c ≠ 0)
  keys_nodup : ∀ vid, (cmKeys (g.vcolors vid)).Nodup
  sums : ∀ vid, cmSum (g.vcolors vid) = (countColored g.edges vid : Int)
  proper : ProperAt g.edges

/-! ## Concrete inputs -/

/-- Nine edges on which the greedy pass hits an empty `available` set at
the last edge `(1, 2)`: vertex 1 then misses exactly `{3, 4}` and vertex 2
exactly `{1, 2}`. -/
def failingInput : List (Int × Int × Int × Int) :=
  [(1, 11, 12, 1), (2, 11, 13, 1), (3, 2, 11, 1), (4, 21, 22, 1),
   (5, 21, 23, 1), (6, 2, 21, 1), (7, 1, 31, 1), (8, 1, 32, 1), (9, 1, 2, 1)]

/-- The path 1–2–3. -/
def pathInput : List (Int × Int × Int × Int) := [(1, 1, 2, 1), (2, 2, 3, 1)]

/-- The triangle on vertices 1, 2, 3. -/
def triangleInput : List (Int × Int × Int × Int) :=
  [(1, 1, 2, 1), (2, 2, 3, 1), (3, 1, 3, 1)]

/-- The coloring `edge_coloring` produces on the triangle. -/
def triangleEdges : List Edge :=
  [⟨1, 1, 2, 1, 1⟩, ⟨2, 2, 3, 1, 2⟩, ⟨3, 1, 3, 1, 3⟩]

/-- A single self-loop at vertex 1. -/
def selfLoopInput : List (Int × Int × Int × Int) := [(1, 1, 1, 1)]

/-- A consistent one-edge graph whose edge is colored 1, for exercising
`color_with` on an already colored edge. -/
def recolorGraph : Multigraph :=
  { vertexIds := [1, 2]
    vcolors := fun w => if w = 1 then [(1, 1)] else if w = 2 then [(1, 1)] else []
    edges := [⟨1, 1, 2, 1, 1⟩]
    colors := Finset.Icc 1 2
    edgeLookup := fun _ => 0 }

/-- The edge of `recolorGraph`. -/
def recolorEdge : Edge := ⟨1, 1, 2, 1, 1⟩

/-- The path graph with the palette `{1, 2, 3}` installed, as at the start
of the coloring loop. -/
def stepGraph : Multigraph := { buildGraph pathInput with colors := Finset.Icc 1 3 }

/-! ## Dictionary lemmas -/

theorem cmLookup_append (m₁ m₂ : ColorMap) (c : Nat) :
    cmLookup (m₁ ++ m₂) c =
      match cmLookup m₁ c with
      | some v => some v
      | none => cmLookup m₂ c := by
  induction m₁ with
  | nil => simp [cmLookup]
  | cons p t ih =>
    obtain ⟨k, v⟩ := p
    by_cases h : k = c <;> simp [cmLookup, h, ih]


theorem cmLookup_cmSet_self (m : ColorMap) (c : Nat) (k : Int) :
    cmLookup (cmSet m c k) c = some k := by
  induction m with
  | nil => simp [cmSet, cmLookup]
  | cons p t ih =>
    obtain ⟨a, b⟩ := p
    by_cases hac : a = c <;> simp [cmSet, cmLookup, hac, ih]

theorem cmLookup_cmSet_ne (m : ColorMap) (c d : Nat) (k : Int) (hdc : d ≠ c) :
    cmLookup (cmSet m c k) d = cmLookup m d := by
  induction m with
  | nil => simp [cmSet, cmLookup, Ne.symm hdc]
  | cons p t ih =>
    obtain ⟨a, b⟩ := p
    by_cases hac : a = c
    · subst hac
      simp [cmSet, cmLookup, Ne.symm hdc]
    · simp [cmSet, cmLookup, hac, ih]

theorem cmGet_cmSet_self (m : ColorMap) (c : Nat) (k : Int) :
    cmGet (cmSet m c k) c = k := by
  simp [cmGet, cmLookup_cmSet_self]

theorem cmGet_cmSet_ne (m : ColorMap) (c d : Nat) (k : Int) (hdc : d ≠ c) :
    cmGet (cmSet m c k) d = cmGet m d := by
  simp [cmGet, cmLookup_cmSet_ne m c d k hdc]

theorem cmLookup_cmErase_self (m : ColorMap) (c : Nat) :
    cmLookup (cmErase m c) c = none := by
  induction m with
  | nil => simp [cmErase, cmLookup]
  | cons p t ih =>
    obtain ⟨a, b⟩ := p
    by_cases hac : a = c <;> simp [cmErase, cmLookup, hac, ih]

theorem cmLookup_cmErase_ne (m : ColorMap) (c d : Nat) (hdc : d ≠ c) :
    cmLookup (cmErase m c) d = cmLookup m d := by
  induction m with
  | nil => simp [cmErase]
  | cons p t ih =>
    obtain ⟨a, b⟩ := p
    by_cases hac : a = c
    · subst hac
      simp [cmErase, cmLookup, Ne.symm hdc, ih]
    · by_cases had : a = d
      · subst had
        simp [cmErase, cmLookup, hac]
      · simp [cmErase, cmLookup, hac, had, ih]

theorem mem_cmKeys_iff (m : ColorMap) (d : Nat) :
    d ∈ cmKeys m ↔ (cmLookup m d).isSome := by
  induction m with
  | nil => simp [cmKeys, cmLookup]
  | cons p t ih =>
    obtain ⟨a, b⟩ := p
    by_cases had : a = d
    · subst had
      simp [cmKeys, cmLookup]
    · have h1 : cmLookup ((a, b) :: t) d = cmLookup t d := by
        simp [cmLookup, had]
      have h2 : cmKeys ((a, b) :: t) = a :: cmKeys t := rfl
      rw [h1, h2, List.mem_cons, ← ih]
      constructor
      · rintro (h | h)
        · exact absurd h.symm had
        · exact h
      · exact Or.inr

theorem cmKeys_cmSet (m : ColorMap) (c : Nat) (k : Int) :
    cmKeys (cmSet m c k) =
      if (cmLookup m c).isSome then cmKeys m else cmKeys m ++ [c] := by
  induction m with
  | nil => simp [cmSet, cmKeys, cmLookup]
  | cons p t ih =>
    obtain ⟨a, b⟩ := p
    by_cases hac : a = c
    · subst hac
      simp [cmSet, cmKeys, cmLookup]
    · have h1 : cmSet ((a, b) :: t) c k = (a, b) :: cmSet t c k := by
        simp [cmSet, hac]
      have h2 : cmLookup ((a, b) :: t) c = cmLookup t c := by
        simp [cmLookup, hac]
      rw [h1, h2]
      show a :: cmKeys (cmSet t c k) =
        if (cmLookup t c).isSome then a :: cmKeys t else (a :: cmKeys t) ++ [c]
      rw [ih]
      by_cases hs : (cmLookup t c).isSome <;> simp [hs]

theorem cmKeys_nodup_cmSet (m : ColorMap) (c : Nat) (k : Int)
    (h : (cmKeys m).Nodup) : (cmKeys (cmSet m c k)).Nodup := by
  rw [cmKeys_cmSet]
  split
  · exact h
  · rename_i hs
    rw [List.nodup_append]
    refine ⟨h, List.nodup_singleton c, ?_⟩
    intro a ha hb
    simp only [List.mem_singleton] at hb
    subst hb
    exact hs ((mem_cmKeys_iff m a).1 ha)

theorem cmSum_cmSet (m : ColorMap) (c : Nat) (k : Int) :
    cmSum (cmSet m c k) = cmSum m - cmGet m c + k := by
  induction m with
  | nil => simp [cmSet, cmSum, cmGet, cmLookup]
  | cons p t ih =>
    obtain ⟨a, b⟩ := p
    by_cases hac : a = c
    · subst hac
      simp [cmSet, cmSum, cmGet, cmLookup]
      ring
    · have hget : cmGet ((a, b) :: t) c = cmGet t c := by
        simp [cmGet, cmLookup, hac]
      simp only [cmSet, if_neg hac, cmSum, List.map_cons, List.sum_cons, hget]
      have := ih
      simp only [cmSum] at this
      omega

/-! ## List surgery lemmas -/

theorem countP_set (es : List Edge) (i : Nat) (e e' : Edge) (p : Edge → Bool)
    (he : es[i]? = some e) :
    (es.set i e').countP p + (if p e then 1 else 0) =
      es.countP p + (if p e' then 1 else 0) := by
  induction es generalizing i with
  | nil => simp at he
  | cons a t ih =>
    cases i with
    | zero =>
      simp only [List.getElem?_cons_zero, Option.some_inj] at he
      subst he
      simp only [List.set_cons_zero, List.countP_cons]
      omega
    | succ n =>
      simp only [List.getElem?_cons_succ] at he
      simp only [List.set_cons_succ, List.countP_cons]
      have := ih n he
      omega

theorem countP_eq_zero_of_uncolored (es : List Edge) (vid : Int) (c : Nat)
    (hc : c ≠ 0) (h : ∀ e ∈ es, e.color = 0) :
    countInc es vid c = 0 := by
  unfold countInc countX countY
  have hx : es.countP (fun e => e.x == vid && e.color == c) = 0 := by
    rw [List.countP_eq_zero]
    intro e he
    simp [h e he, Ne.symm hc]
  have hy : es.countP (fun e => e.y == vid && e.color == c) = 0 := by
    rw [List.countP_eq_zero]
    intro e he
    simp [h e he, Ne.symm hc]
  omega

/-! ## Shape lemmas for `color_with` and `setEdgeColor` -/

theorem colorWith_edges (g : Multigraph) (e : Edge) (c : Nat) :
    (colorWith g e c).1.edges = g.edges := by
  simp only [colorWith, Multigraph.updV]
  split <;> rfl

theorem colorWith_palette (g : Multigraph) (e : Edge) (c : Nat) :
    (colorWith g e c).1.colors = g.colors := by
  simp only [colorWith, Multigraph.updV]
  split <;> rfl

theorem colorWith_vertexIds (g : Multigraph) (e : Edge) (c : Nat) :
    (colorWith g e c).1.vertexIds = g.vertexIds := by
  simp only [colorWith, Multigraph.updV]
  split <;> rfl

theorem colorWith_snd (g : Multigraph) (e : Edge) (c : Nat) :
    (colorWith g e c).2 = { e with color := c } := rfl

theorem colorWith_vcolors_uncolored (g : Multigraph) (e : Edge) (c : Nat)
    (h0 : e.color = 0) (w : Int) :
    (colorWith g e c).1.vcolors w =
      if w = e.y then
        bumpColor (if w = e.x then bumpColor (g.vcolors w) c else g.vcolors w) c
      else if w = e.x then bumpColor (g.vcolors w) c
      else g.vcolors w := by
  simp [colorWith, h0, Multigraph.updV]

theorem cmGet_bump_self (m : ColorMap) (c : Nat) :
    cmGet (bumpColor m c) c = cmGet m c + 1 := by
  simp [bumpColor, cmGet_cmSet_self]

theorem cmGet_bump_ne (m : ColorMap) (c d : Nat) (hdc : d ≠ c) :
    cmGet (bumpColor m c) d = cmGet m d := by
  simp [bumpColor, cmGet_cmSet_ne m c d _ hdc]

theorem mem_cmKeys_cmSet (m : ColorMap) (c : Nat) (k : Int) (d : Nat) :
    d ∈ cmKeys (cmSet m c k) ↔ d ∈ cmKeys m ∨ d = c := by
  by_cases hdc : d = c
  · subst hdc
    simp only [or_true, iff_true]
    rw [mem_cmKeys_iff, cmLookup_cmSet_self]
    rfl
  · rw [mem_cmKeys_iff, cmLookup_cmSet_ne m c d k hdc, ← mem_cmKeys_iff]
    simp [hdc]

theorem mem_cmKeys_bump (m : ColorMap) (c d : Nat) :
    d ∈ cmKeys (bumpColor m c) ↔ d ∈ cmKeys m ∨ d = c :=
  mem_cmKeys_cmSet m c _ d

theorem cmKeys_nodup_bump (m : ColorMap) (c : Nat)
    (h : (cmKeys m).Nodup) : (cmKeys (bumpColor m c)).Nodup :=
  cmKeys_nodup_cmSet m c _ h

theorem cmSum_bump (m : ColorMap) (c : Nat) :
    cmSum (bumpColor m c) = cmSum m + 1 := by
  rw [bumpColor, cmSum_cmSet]
  ring

theorem countInc_set_uncolored (es : List Edge) (i : Nat) (e : Edge)
    (vid : Int) (c : Nat) (he : es[i]? = some e) (h0 : e.color = 0)
    (hc : c ≠ 0) :
    countInc (es.set i { e with color := c }) vid c =
      countInc es vid c + (if e.x = vid then 1 else 0) +
        (if e.y = vid then 1 else 0) := by
  have hX := countP_set es i e { e with color := c }
    (fun f => f.x == vid && f.color == c) he
  have hY := countP_set es i e { e with color := c }
    (fun f => f.y == vid && f.color == c) he
  simp only [h0, beq_iff_eq, Bool.and_eq_true, decide_eq_true_eq] at hX hY
  unfold countInc countX countY
  by_cases hxv : e.x = vid <;> by_cases hyv : e.y = vid <;>
    simp [hxv, hyv, Ne.symm hc] at hX hY ⊢ <;> omega

theorem countInc_set_ne (es : List Edge) (i : Nat) (e : Edge)
    (vid : Int) (c d : Nat) (he : es[i]? = some e) (h0 : e.color = 0)
    (hd : d ≠ 0) (hdc : d ≠ c) :
    countInc (es.set i { e with color := c }) vid d = countInc es vid d := by
  have hX := countP_set es i e { e with color := c }
    (fun f => f.x == vid && f.color == d) he
  have hY := countP_set es i e { e with color := c }
    (fun f => f.y == vid && f.color == d) he
  simp only [h0, beq_iff_eq, Bool.and_eq_true, decide_eq_true_eq] at hX hY
  unfold countInc countX countY
  simp [Ne.symm hd, Ne.symm hdc] at hX hY
  omega

theorem countColored_set_uncolored (es : List Edge) (i : Nat) (e : Edge)
    (vid : Int) (c : Nat) (he : es[i]? = some e) (h0 : e.color = 0)
    (hc : c ≠ 0) :
    countColored (es.set i { e with color := c }) vid =
      countColored es vid + (if e.x = vid then 1 else 0) +
        (if e.y = vid then 1 else 0) := by
  have hX := countP_set es i e { e with color := c }
    (fun f => f.x == vid && f.color != 0) he
  have hY := countP_set es i e { e with color := c }
    (fun f => f.y == vid && f.color != 0) he
  simp only [h0, beq_iff_eq, Bool.and_eq_true, decide_eq_true_eq,
    bne_iff_ne, ne_eq] at hX hY
  unfold countColored
  by_cases hxv : e.x = vid <;> by_cases hyv : e.y = vid <;>
    simp [hxv, hyv, hc] at hX hY ⊢ <;> omega

theorem countInc_pos_of_mem (es : List Edge) (f : Edge) (vid : Int)
    (c : Nat) (hf : f ∈ es) (hcol : f.color = c)
    (hend : f.x = vid ∨ f.y = vid) : countInc es vid c ≠ 0 := by
  unfold countInc countX countY
  cases hend with
  | inl hx =>
    have : 0 < es.countP (fun e => e.x == vid && e.color == c) :=
      List.countP_pos_iff.2 ⟨f, hf, by simp [hx, hcol]⟩
    omega
  | inr hy =>
    have : 0 < es.countP (fun e => e.y == vid && e.color == c) :=
      List.countP_pos_iff.2 ⟨f, hf, by simp [hy, hcol]⟩
    omega


/-! ## Preservation of the invariant by one coloring step -/

theorem setEdgeColor_consistent (g : Multigraph) (i : Nat) (e : Edge) (c : Nat)
    (hg : Consistent g) (he : g.edges[i]? = some e) (h0 : e.color = 0)
    (hc : c ≠ 0) (hcp : c ∈ g.colors)
    (hx : countInc g.edges e.x c = 0) (hy : countInc g.edges e.y c = 0) :
    Consistent (setEdgeColor g i c) ∧
      (setEdgeColor g i c).edges = g.edges.set i { e with color := c } ∧
      (setEdgeColor g i c).colors = g.colors ∧
      (setEdgeColor g i c).vertexIds = g.vertexIds := by
  have hshape : setEdgeColor g i c =
      { (colorWith g e c).1 with
        edges := g.edges.set i { e with color := c } } := by
    simp only [setEdgeColor, he]
    rw [colorWith_edges, colorWith_snd]
  have hE : (setEdgeColor g i c).edges = g.edges.set i { e with color := c } := by
    rw [hshape]
  have hC : (setEdgeColor g i c).colors = g.colors := by
    rw [hshape]
    exact colorWith_palette g e c
  have hV : (setEdgeColor g i c).vertexIds = g.vertexIds := by
    rw [hshape]
    exact colorWith_vertexIds g e c
  have hW : ∀ w, (setEdgeColor g i c).vcolors w =
      if w = e.y then
        bumpColor (if w = e.x then bumpColor (g.vcolors w) c else g.vcolors w) c
      else if w = e.x then bumpColor (g.vcolors w) c
      else g.vcolors w := by
    intro w
    rw [hshape]
    exact colorWith_vcolors_uncolored g e c h0 w
  refine ⟨⟨?_, ?_, ?_, ?_, ?_, ?_, ?_, ?_⟩, hE, hC, hV⟩
  · rw [hC]
    exact hg.palette_pos
  · rw [hC]
    exact hg.palette_ne
  · intro f hf
    rw [hE] at hf
    rw [hC]
    rcases List.mem_or_eq_of_mem_set hf with hmem | rfl
    · exact hg.edge_colors f hmem
    · exact Or.inr hcp
  · intro vid d hd
    rw [hW vid, hE]
    have hcounts := hg.counts vid d hd
    by_cases hvy : vid = e.y
    · by_cases hvx : vid = e.x
      · rw [if_pos hvy, if_pos hvx]
        by_cases hdc : d = c
        · subst hdc
          rw [cmGet_bump_self, cmGet_bump_self,
            countInc_set_uncolored g.edges i e vid d he h0 hd,
            if_pos hvx.symm, if_pos hvy.symm, hcounts]
          push_cast
          ring
        · rw [cmGet_bump_ne _ _ _ hdc, cmGet_bump_ne _ _ _ hdc,
            countInc_set_ne g.edges i e vid c d he h0 hd hdc, hcounts]
      · rw [if_pos hvy, if_neg hvx]
        by_cases hdc : d = c
        · subst hdc
          rw [cmGet_bump_self,
            countInc_set_uncolored g.edges i e vid d he h0 hd,
            if_neg (fun h => hvx h.symm), if_pos hvy.symm, hcounts]
          push_cast
          ring
        · rw [cmGet_bump_ne _ _ _ hdc,
            countInc_set_ne g.edges i e vid c d he h0 hd hdc, hcounts]
    · by_cases hvx : vid = e.x
      · rw [if_neg hvy, if_pos hvx]
        by_cases hdc : d = c
        · subst hdc
          rw [cmGet_bump_self,
            countInc_set_uncolored g.edges i e vid d he h0 hd,
            if_pos hvx.symm, if_neg (fun h => hvy h.symm), hcounts]
          push_cast
          ring
        · rw [cmGet_bump_ne _ _ _ hdc,
            countInc_set_ne g.edges i e vid c d he h0 hd hdc, hcounts]
      · rw [if_neg hvy, if_neg hvx]
        by_cases hdc : d = c
        · subst hdc
          rw [countInc_set_uncolored g.edges i e vid d he h0 hd,
            if_neg (fun h => hvx h.symm), if_neg (fun h => hvy h.symm), hcounts]
          push_cast
          ring
        · rw [countInc_set_ne g.edges i e vid c d he h0 hd hdc, hcounts]
  · intro vid d hd
    rw [hW vid, hE]
    have hkeys := hg.keys_iff vid d hd
    by_cases hvy : vid = e.y
    · by_cases hvx : vid = e.x
      · rw [if_pos hvy, if_pos hvx]
        by_cases hdc : d = c
        · subst hdc
          rw [countInc_set_uncolored g.edges i e vid d he h0 hd,
            if_pos hvx.symm, if_pos hvy.symm]
          exact iff_of_true ((mem_cmKeys_bump _ _ _).2 (Or.inr rfl)) (by omega)
        · rw [countInc_set_ne g.edges i e vid c d he h0 hd hdc,
            mem_cmKeys_bump, mem_cmKeys_bump]
          simp [hdc, hkeys]
      · rw [if_pos hvy, if_neg hvx]
        by_cases hdc : d = c
        · subst hdc
          rw [countInc_set_uncolored g.edges i e vid d he h0 hd,
            if_neg (fun h => hvx h.symm), if_pos hvy.symm]
          exact iff_of_true ((mem_cmKeys_bump _ _ _).2 (Or.inr rfl)) (by omega)
        · rw [countInc_set_ne g.edges i e vid c d he h0 hd hdc,
            mem_cmKeys_bump]
          simp [hdc, hkeys]
    · by_cases hvx : vid = e.x
      · rw [if_neg hvy, if_pos hvx]
        by_cases hdc : d = c
        · subst hdc
          rw [countInc_set_uncolored g.edges i e vid d he h0 hd,
            if_pos hvx.symm, if_neg (fun h => hvy h.symm)]
          exact iff_of_true ((mem_cmKeys_bump _ _ _).2 (Or.inr rfl)) (by omega)
        · rw [countInc_set_ne g.edges i e vid c d he h0 hd hdc,
            mem_cmKeys_bump]
          simp [hdc, hkeys]
      · rw [if_neg hvy, if_neg hvx]
        by_cases hdc : d = c
        · subst hdc
          rw [countInc_set_uncolored g.edges i e vid d he h0 hd,
            if_neg (fun h => hvx h.symm), if_neg (fun h => hvy h.symm)]
          simpa using hkeys
        · rw [countInc_set_ne g.edges i e vid c d he h0 hd hdc]
          exact hkeys
  · intro vid
    rw [hW vid]
    by_cases hvy : vid = e.y
    · by_cases hvx : vid = e.x
      · rw [if_pos hvy, if_pos hvx]
        exact cmKeys_nodup_bump _ _ (cmKeys_nodup_bump _ _ (hg.keys_nodup vid))
      · rw [if_pos hvy, if_neg hvx]
        exact cmKeys_nodup_bump _ _ (hg.keys_nodup vid)
    · by_cases hvx : vid = e.x
      · rw [if_neg hvy, if_pos hvx]
        exact cmKeys_nodup_bump _ _ (hg.keys_nodup vid)
      · rw [if_neg hvy, if_neg hvx]
        exact hg.keys_nodup vid
  · intro vid
    rw [hW vid, hE, countColored_set_uncolored g.edges i e vid c he h0 hc]
    have hsum := hg.sums vid
    by_cases hvy : vid = e.y
    · by_cases hvx : vid = e.x
      · rw [if_pos hvy, if_pos hvx, cmSum_bump, cmSum_bump, hsum,
          if_pos hvx.symm, if_pos hvy.symm]
        push_cast
        ring
      · rw [if_pos hvy, if_neg hvx, cmSum_bump, hsum,
          if_neg (fun h => hvx h.symm), if_pos hvy.symm]
        push_cast
        ring
    · by_cases hvx : vid = e.x
      · rw [if_neg hvy, if_pos hvx, cmSum_bump, hsum,
          if_pos hvx.symm, if_neg (fun h => hvy h.symm)]
        push_cast
        ring
      · rw [if_neg hvy, if_neg hvx, hsum,
          if_neg (fun h => hvx h.symm), if_neg (fun h => hvy h.symm)]
        push_cast
        ring
  · rw [hE]
    intro i' hi' j' hj' hne hsh hc1 hc2
    have hL : (g.edges.set i { e with color := c }).length = g.edges.length := by
      simp
    have hi2 : i' < g.edges.length := hL ▸ hi'
    have hj2 : j' < g.edges.length := hL ▸ hj'
    by_cases hii : i' = i <;> by_cases hji : j' = i
    · exact absurd (hii.trans hji.symm) hne
    · subst hii
      have hgi : (g.edges.set i' { e with color := c })[i'] =
          { e with color := c } := List.getElem_set_self _
      have hgj : (g.edges.set i' { e with color := c })[j'] =
          g.edges[j'] := List.getElem_set_ne (fun h => hji h.symm) _
      rw [hgi] at hsh hc1 ⊢
      rw [hgj] at hsh hc2 ⊢
      intro heq
      have hmem : g.edges[j'] ∈ g.edges := List.getElem_mem hj2
      have hcol : (g.edges[j']).color = c := heq.symm
      rcases hsh with h | h | h | h
      · exact countInc_pos_of_mem g.edges _ e.x c hmem hcol (Or.inl h.symm) hx
      · exact countInc_pos_of_mem g.edges _ e.x c hmem hcol (Or.inr h.symm) hx
      · exact countInc_pos_of_mem g.edges _ e.y c hmem hcol (Or.inl h.symm) hy
      · exact countInc_pos_of_mem g.edges _ e.y c hmem hcol (Or.inr h.symm) hy
    · subst hji
      have hgj : (g.edges.set j' { e with color := c })[j'] =
          { e with color := c } := List.getElem_set_self _
      have hgi : (g.edges.set j' { e with color := c })[i'] =
          g.edges[i'] := List.getElem_set_ne (fun h => hii h.symm) _
      rw [hgi] at hsh hc1 ⊢
      rw [hgj] at hsh hc2 ⊢
      intro heq
      have hmem : g.edges[i'] ∈ g.edges := List.getElem_mem hi2
      have hcol : (g.edges[i']).color = c := heq
      rcases hsh with h | h | h | h
      · exact countInc_pos_of_mem g.edges _ e.x c hmem hcol (Or.inl h) hx
      · exact countInc_pos_of_mem g.edges _ e.y c hmem hcol (Or.inl h) hy
      · exact countInc_pos_of_mem g.edges _ e.x c hmem hcol (Or.inr h) hx
      · exact countInc_pos_of_mem g.edges _ e.y c hmem hcol (Or.inr h) hy
    · have hgi : (g.edges.set i { e with color := c })[i'] =
          g.edges[i'] := List.getElem_set_ne (fun h => hii h.symm) _
      have hgj : (g.edges.set i { e with color := c })[j'] =
          g.edges[j'] := List.getElem_set_ne (fun h => hji h.symm) _
      rw [hgi] at hsh hc1 ⊢
      rw [hgj] at hsh hc2 ⊢
      exact hg.proper i' hi2 j' hj2 hne hsh hc1 hc2

theorem countInc_eq_zero_of_not_colored (es : List Edge) (vid : Int) (c : Nat)
    (h : ∀ f ∈ es, f.color ≠ c) : countInc es vid c = 0 := by
  unfold countInc countX countY
  have hx : es.countP (fun e => e.x == vid && e.color == c) = 0 :=
    List.countP_eq_zero.2 (fun f hf => by simp [h f hf])
  have hy : es.countP (fun e => e.y == vid && e.color == c) = 0 :=
    List.countP_eq_zero.2 (fun f hf => by simp [h f hf])
  omega

theorem consistent_insert_palette (g : Multigraph) (c : Nat)
    (hg : Consistent g) (hc : 1 ≤ c) :
    Consistent { g with colors := insert c g.colors } := by
  refine ⟨?_, ?_, ?_, hg.counts, hg.keys_iff, hg.keys_nodup, hg.sums, hg.proper⟩
  · intro d hd
    rcases Finset.mem_insert.1 hd with rfl | hd
    · exact hc
    · exact hg.palette_pos d hd
  · exact Finset.insert_nonempty c g.colors
  · intro e he
    rcases hg.edge_colors e he with h0 | hmem
    · exact Or.inl h0
    · exact Or.inr (Finset.mem_insert_of_mem hmem)

/-- One loop iteration on an uncolored edge succeeds and preserves the
invariant, coloring exactly that edge with some nonzero color. -/
theorem colorStep_spec (g : Multigraph) (i : Nat) (e : Edge)
    (hg : Consistent g) (he : g.edges[i]? = some e) (h0 : e.color = 0) :
    ∃ g' c, colorStep g i = .ok g' ∧ Consistent g' ∧ c ≠ 0 ∧
      g'.edges = g.edges.set i { e with color := c } ∧
      g'.vertexIds = g.vertexIds := by
  by_cases h : (missingColorsAt g e.x ∩ missingColorsAt g e.y).Nonempty
  · set c := (missingColorsAt g e.x ∩ missingColorsAt g e.y).min' h with hcdef
    have hcmem := (missingColorsAt g e.x ∩ missingColorsAt g e.y).min'_mem h
    have hcx : c ∈ missingColorsAt g e.x := (Finset.mem_inter.1 hcmem).1
    have hcy : c ∈ missingColorsAt g e.y := (Finset.mem_inter.1 hcmem).2
    have hcp : c ∈ g.colors := (Finset.mem_sdiff.1 hcx).1
    have hc1 : 1 ≤ c := hg.palette_pos c hcp
    have hc0 : c ≠ 0 := by omega
    have hx : countInc g.edges e.x c = 0 := by
      have hnk : c ∉ cmKeys (g.vcolors e.x) := by
        intro hk
        exact (Finset.mem_sdiff.1 hcx).2 (List.mem_toFinset.2 hk)
      by_contra hne
      exact hnk ((hg.keys_iff e.x c hc0).2 hne)
    have hy : countInc g.edges e.y c = 0 := by
      have hnk : c ∉ cmKeys (g.vcolors e.y) := by
        intro hk
        exact (Finset.mem_sdiff.1 hcy).2 (List.mem_toFinset.2 hk)
      by_contra hne
      exact hnk ((hg.keys_iff e.y c hc0).2 hne)
    obtain ⟨hcons, hE, _, hV⟩ :=
      setEdgeColor_consistent g i e c hg he h0 hc0 hcp hx hy
    refine ⟨setEdgeColor g i c, c, ?_, hcons, hc0, hE, hV⟩
    simp only [colorStep, he]
    rw [dif_pos h]
  · obtain ⟨mc, hmax⟩ := Finset.max_of_nonempty hg.palette_ne
    have hmc : mc ∈ g.colors := Finset.mem_of_max hmax
    have hmc1 : 1 ≤ mc := hg.palette_pos mc hmc
    have hfresh : mc + 1 ∉ g.colors := by
      intro hmem
      have := Finset.le_max hmem
      rw [hmax] at this
      exact absurd (WithBot.coe_le_coe.1 this) (by omega)
    set g2 : Multigraph := { g with colors := insert (mc + 1) g.colors } with hg2
    have hcons2 : Consistent g2 := consistent_insert_palette g (mc + 1) hg (by omega)
    have hnc : ∀ f ∈ g2.edges, f.color ≠ mc + 1 := by
      intro f hf hcol
      rcases hg.edge_colors f hf with hz | hmem
      · omega
      · exact hfresh (hcol ▸ hmem)
    have hx : countInc g2.edges e.x (mc + 1) = 0 :=
      countInc_eq_zero_of_not_colored _ _ _ hnc
    have hy : countInc g2.edges e.y (mc + 1) = 0 :=
      countInc_eq_zero_of_not_colored _ _ _ hnc
    have he2 : g2.edges[i]? = some e := he
    obtain ⟨hcons, hE, _, hV⟩ :=
      setEdgeColor_consistent g2 i e (mc + 1) hcons2 he2 h0 (by omega)
        (Finset.mem_insert_self _ _) hx hy
    refine ⟨setEdgeColor g2 i (mc + 1), mc + 1, ?_, hcons, by omega, hE, hV⟩
    simp only [colorStep, he]
    rw [dif_neg h, hmax]

/-- The edge loop succeeds from any consistent state whose edges from
position `i` on are uncolored, and colors every position below
`i + fuel`. -/
theorem colorLoop_spec : ∀ (fuel : Nat) (g : Multigraph) (i : Nat),
    Consistent g →
    (∀ j e, i ≤ j → g.edges[j]? = some e → e.color = 0) →
    (∀ j e, j < i → g.edges[j]? = some e → e.color ≠ 0) →
    ∃ g', colorLoop fuel g i = .ok g' ∧ Consistent g' ∧
      g'.edges.length = g.edges.length ∧
      g'.vertexIds = g.vertexIds ∧
      (∀ j e, j < i + fuel → g'.edges[j]? = some e → e.color ≠ 0) ∧
      (∀ j e, i + fuel ≤ j → g'.edges[j]? = some e → e.color = 0) := by
  intro fuel
  induction fuel with
  | zero =>
    intro g i hg hunc hcol
    exact ⟨g, rfl, hg, rfl, rfl, fun j e hj => hcol j e (by omega),
      fun j e hj => hunc j e (by omega)⟩
  | succ fuel ih =>
    intro g i hg hunc hcol
    by_cases hil : i < g.edges.length
    · have he : g.edges[i]? = some (g.edges[i]) := List.getElem?_eq_getElem hil
      set e := g.edges[i] with hedef
      have h0 : e.color = 0 := hunc i e (le_refl i) he
      obtain ⟨g2, c, hstep, hcons2, hc0, hedges2, hids2⟩ :=
        colorStep_spec g i e hg he h0
      have hlen2 : g2.edges.length = g.edges.length := by
        rw [hedges2]
        simp
      have hunc2 : ∀ j f, i + 1 ≤ j → g2.edges[j]? = some f → f.color = 0 := by
        intro j f hj hjf
        rw [hedges2, List.getElem?_set_ne (by omega)] at hjf
        exact hunc j f (by omega) hjf
      have hcol2 : ∀ j f, j < i + 1 → g2.edges[j]? = some f → f.color ≠ 0 := by
        intro j f hj hjf
        by_cases hji : j = i
        · subst hji
          rw [hedges2, List.getElem?_set_self hil] at hjf
          cases hjf
          exact hc0
        · rw [hedges2, List.getElem?_set_ne (fun h => hji h.symm)] at hjf
          exact hcol j f (by omega) hjf
      obtain ⟨g', hloop, hg', hlen', hids', hcol', hunc'⟩ :=
        ih g2 (i + 1) hcons2 hunc2 hcol2
      refine ⟨g', ?_, hg', hlen'.trans hlen2, hids'.trans hids2, ?_, ?_⟩
      · simp only [colorLoop, if_pos hil, hstep]
        exact hloop
      · intro j f hj
        exact hcol' j f (by omega)
      · intro j f hj
        exact hunc' j f (by omega)
    · refine ⟨g, ?_, hg, rfl, rfl, ?_, ?_⟩
      · simp [colorLoop, hil]
      · intro j f hj hjf
        have hjl : j < g.edges.length := (List.getElem?_eq_some_iff.1 hjf).1
        exact hcol j f (by omega) hjf
      · intro j f hj hjf
        exact hunc j f (by omega) hjf

theorem countColored_eq_zero (es : List Edge) (vid : Int)
    (h : ∀ e ∈ es, e.color = 0) : countColored es vid = 0 := by
  unfold countColored
  have hx : es.countP (fun e => e.x == vid && e.color != 0) = 0 :=
    List.countP_eq_zero.2 (fun f hf => by simp [h f hf])
  have hy : es.countP (fun e => e.y == vid && e.color != 0) = 0 :=
    List.countP_eq_zero.2 (fun f hf => by simp [h f hf])
  omega

/-- A graph whose edges are all uncolored and whose color dicts are all
empty is consistent once the palette is set to `{1, …, Δ+1}`. -/
theorem consistent_init (g : Multigraph) (delta : Nat)
    (hzero : ∀ e ∈ g.edges, e.color = 0)
    (hmaps : ∀ vid, g.vcolors vid = []) :
    Consistent { g with colors := Finset.Icc 1 (delta + 1) } := by
  refine ⟨?_, ?_, ?_, ?_, ?_, ?_, ?_, ?_⟩
  · intro c hc
    exact (Finset.mem_Icc.1 hc).1
  · exact Finset.nonempty_Icc.2 (by omega)
  · intro e he
    exact Or.inl (hzero e he)
  · intro vid c hc
    rw [hmaps vid, countP_eq_zero_of_uncolored g.edges vid c hc hzero]
    rfl
  · intro vid c hc
    rw [hmaps vid, countP_eq_zero_of_uncolored g.edges vid c hc hzero]
    simp [cmKeys]
  · intro vid
    rw [hmaps vid]
    simp [cmKeys]
  · intro vid
    rw [hmaps vid, countColored_eq_zero g.edges vid hzero]
    rfl
  · intro i hi j hj hne hsh hc1 hc2
    exact absurd (hzero _ (List.getElem_mem hi)) hc1

/-- `edge_coloring` on a freshly built graph with a computable Δ returns
a consistent, fully colored graph. -/
theorem edgeColoring_spec (g : Multigraph) (delta : Nat)
    (hdelta : maxDegree g = some delta)
    (hzero : ∀ e ∈ g.edges, e.color = 0)
    (hmaps : ∀ vid, g.vcolors vid = []) :
    ∃ g', edgeColoring g = .ok g' ∧ Consistent g' ∧
      g'.edges.length = g.edges.length ∧
      g'.vertexIds = g.vertexIds ∧
      ∀ e ∈ g'.edges, e.color ≠ 0 := by
  have hcons1 := consistent_init g delta hzero hmaps
  obtain ⟨g', hloop, hg', hlen', hids', hcol', _⟩ :=
    colorLoop_spec g.edges.length { g with colors := Finset.Icc 1 (delta + 1) } 0
      hcons1
      (fun j e _ hje => by
        obtain ⟨hlt, heq⟩ := List.getElem?_eq_some_iff.1 hje
        exact hzero e (heq ▸ List.getElem_mem hlt))
      (fun j e hj _ => absurd hj (by omega))
  refine ⟨g', ?_, hg', hlen', hids', ?_⟩
  · simp only [edgeColoring, hdelta]
    exact hloop
  · intro e he
    obtain ⟨j, hj, hje⟩ := List.getElem_of_mem he
    have hjlen : j < g.edges.length := by
      have := hlen' ▸ hj
      simpa using this
    exact hje ▸ hcol' j (g'.edges[j]) (by omega)
      (List.getElem?_eq_getElem hj)

/-! ## The maximum degree computation -/

theorem foldl_max_spec (ds : List Nat) : ∀ d : Nat,
    (∀ a ∈ ds, a ≤ ds.foldl max d) ∧ d ≤ ds.foldl max d ∧
      (ds.foldl max d = d ∨ ds.foldl max d ∈ ds) := by
  induction ds with
  | nil => exact fun d => ⟨by simp, le_refl d, Or.inl rfl⟩
  | cons a t ih =>
    intro d
    obtain ⟨h1, h2, h3⟩ := ih (max d a)
    rw [List.foldl_cons]
    refine ⟨?_, ?_, ?_⟩
    · intro b hb
      rcases List.mem_cons.1 hb with rfl | hbt
      · exact le_trans (le_max_right d b) h2
      · exact h1 b hbt
    · exact le_trans (le_max_left d a) h2
    · rcases h3 with he | hmem
      · rcases max_choice d a with hd | ha
        · exact Or.inl (he.trans hd)
        · refine Or.inr ?_
          rw [he, ha]
          exact List.mem_cons_self a t
      · exact Or.inr (List.mem_cons_of_mem a hmem)

/-- `maxDegree` really computes the maximum vertex degree: it bounds every
vertex's degree and is attained by some vertex. -/
theorem maxDegree_spec (g : Multigraph) (delta : Nat)
    (h : maxDegree g = some delta) :
    (∀ v ∈ g.vertexIds, degreeOf g v ≤ delta) ∧
      ∃ v ∈ g.vertexIds, degreeOf g v = delta := by
  unfold maxDegree at h
  split at h
  · exact absurd h (by simp)
  · rename_i v vs hvs
    rw [Option.some_inj] at h
    obtain ⟨h1, h2, h3⟩ := foldl_max_spec (vs.map (fun w => degreeOf g w))
      (degreeOf g v)
    rw [hvs]
    constructor
    · intro w hw
      rcases List.mem_cons.1 hw with rfl | hwt
      · exact h ▸ h2
      · exact h ▸ h1 _ (List.mem_map_of_mem _ hwt)
    · rcases h3 with he | hmem
      · exact ⟨v, List.mem_cons_self v vs, he.symm.trans h⟩
      · obtain ⟨w, hwt, hwe⟩ := List.mem_map.1 hmem
        exact ⟨w, List.mem_cons_of_mem v hwt, hwe.trans h⟩

/-! ## Freshly built graphs -/

theorem addVertex_vcolors (g : Multigraph) (x : Int) :
    (g.addVertex x).vcolors = g.vcolors := by
  unfold Multigraph.addVertex
  split <;> rfl

theorem addVertex_edges (g : Multigraph) (x : Int) :
    (g.addVertex x).edges = g.edges := by
  unfold Multigraph.addVertex
  split <;> rfl

theorem addEdge_vcolors (g : Multigraph) (i x y m : Int) :
    (g.addEdge i x y m).vcolors = g.vcolors := by
  unfold Multigraph.addEdge
  simp [addVertex_vcolors]

theorem addEdge_edges (g : Multigraph) (i x y m : Int) :
    (g.addEdge i x y m).edges =
      g.edges ++ [{ ident := i, x := x, y := y, mult := m, color := 0 }] := by
  unfold Multigraph.addEdge
  simp [addVertex_edges]

theorem addVertex_vertexIds_ne (g : Multigraph) (x : Int) :
    (g.addVertex x).vertexIds ≠ [] := by
  unfold Multigraph.addVertex
  split
  · exact List.ne_nil_of_mem (by assumption)
  · simp

theorem addEdge_vertexIds_ne (g : Multigraph) (i x y m : Int) :
    (g.addEdge i x y m).vertexIds ≠ [] := by
  unfold Multigraph.addEdge
  simpa using addVertex_vertexIds_ne (g.addVertex x) y

/-- Every graph built from an edge record list is pristine: all edges
uncolored, all color dicts empty. -/
theorem buildGraph_pristine (rs : List (Int × Int × Int × Int)) :
    (∀ e ∈ (buildGraph rs).edges, e.color = 0) ∧
      (∀ vid, (buildGraph rs).vcolors vid = []) := by
  suffices h : ∀ (rs : List (Int × Int × Int × Int)) (g : Multigraph),
      (∀ e ∈ g.edges, e.color = 0) → (∀ vid, g.vcolors vid = []) →
      (∀ e ∈ (rs.foldl (fun g r => g.addEdge r.1 r.2.1 r.2.2.1 r.2.2.2) g).edges,
        e.color = 0) ∧
      (∀ vid, (rs.foldl (fun g r => g.addEdge r.1 r.2.1 r.2.2.1 r.2.2.2) g).vcolors
        vid = []) by
    exact h rs Multigraph.empty (by simp [Multigraph.empty])
      (fun _ => rfl)
  intro rs
  induction rs with
  | nil => exact fun g hz hm => ⟨hz, hm⟩
  | cons r t ih =>
    intro g hz hm
    rw [List.foldl_cons]
    refine ih _ ?_ ?_
    · intro e he
      rw [addEdge_edges] at he
      rcases List.mem_append.1 he with hmem | hmem
      · exact hz e hmem
      · simp only [List.mem_singleton] at hmem
        rw [hmem]
    · intro vid
      rw [addEdge_vcolors]
      exact hm vid

theorem buildGraph_vertexIds_ne (rs : List (Int × Int × Int × Int))
    (h : rs ≠ []) : (buildGraph rs).vertexIds ≠ [] := by
  suffices haux : ∀ (t : List (Int × Int × Int × Int)) (g : Multigraph),
      g.vertexIds ≠ [] →
      (t.foldl (fun g r => g.addEdge r.1 r.2.1 r.2.2.1 r.2.2.2) g).vertexIds ≠ [] by
    cases rs with
    | nil => exact absurd rfl h
    | cons r t =>
      unfold buildGraph
      rw [List.foldl_cons]
      exact haux t _ (addEdge_vertexIds_ne Multigraph.empty r.1 r.2.1 r.2.2.1 r.2.2.2)
  intro t
  induction t with
  | nil => exact fun g hg => hg
  | cons r t ih =>
    intro g hg
    rw [List.foldl_cons]
    exact ih _ (addEdge_vertexIds_ne g r.1 r.2.1 r.2.2.1 r.2.2.2)

theorem maxDegree_isSome_of_ne (g : Multigraph) (h : g.vertexIds ≠ []) :
    ∃ delta, maxDegree g = some delta := by
  unfold maxDegree
  cases hvs : g.vertexIds with
  | nil => exact absurd hvs h
  | cons v vs => exact ⟨_, rfl⟩

/-- Once every edge is colored, the total count of colored endpoint slots
at a vertex is its degree plus the number of its self-loops (each loop
occupies two slots but is a single incident edge). -/
theorem countColored_of_colored (es : List Edge) (vid : Int)
    (h : ∀ e ∈ es, e.color ≠ 0) :
    countColored es vid =
      (es.filter (fun e => e.x == vid || e.y == vid)).length +
        selfLoopsAt es vid := by
  induction es with
  | nil => rfl
  | cons e t ih =>
    have he := h e (List.mem_cons_self e t)
    have iht := ih (fun f hf => h f (List.mem_cons_of_mem e hf))
    unfold countColored selfLoopsAt at iht ⊢
    rw [← List.countP_eq_length_filter] at iht ⊢
    simp only [List.countP_cons]
    by_cases hxv : e.x = vid <;> by_cases hyv : e.y = vid <;>
      simp [hxv, hyv, he] <;> omega

/-! ## `color_with` on an already colored edge -/

theorem colorWith_vcolors_colored_other (g : Multigraph) (e : Edge) (c : Nat)
    (hc : e.color ≠ 0) (w : Int) (hwx : w ≠ e.x) (hwy : w ≠ e.y) :
    (colorWith g e c).1.vcolors w = g.vcolors w := by
  simp [colorWith, hc, Multigraph.updV, hwx, hwy]

theorem colorWith_vcolors_colored_left (g : Multigraph) (e : Edge) (c : Nat)
    (hc : e.color ≠ 0) (hxy : e.x ≠ e.y) :
    (colorWith g e c).1.vcolors e.x =
      bumpColor (pruneZero (dropColor (g.vcolors e.x) e.color) e.color) c := by
  simp [colorWith, hc, Multigraph.updV, hxy, Ne.symm hxy]

theorem colorWith_vcolors_colored_right (g : Multigraph) (e : Edge) (c : Nat)
    (hc : e.color ≠ 0) (hxy : e.x ≠ e.y) :
    (colorWith g e c).1.vcolors e.y =
      bumpColor (pruneZero (dropColor (g.vcolors e.y) e.color) e.color) c := by
  simp [colorWith, hc, Multigraph.updV, hxy, Ne.symm hxy]

theorem colorWith_vcolors_colored_loop (g : Multigraph) (e : Edge) (c : Nat)
    (hc : e.color ≠ 0) (hxy : e.x = e.y) :
    (colorWith g e c).1.vcolors e.x =
      bumpColor (bumpColor (pruneZero (pruneZero
        (dropColor (dropColor (g.vcolors e.x) e.color) e.color)
          e.color) e.color) c) c := by
  simp [colorWith, hc, Multigraph.updV, hxy]

/-- Dropping, pruning and bumping back the same keyed color is invisible
to every lookup. -/
theorem recolor_cycle_lookup (m : ColorMap) (c : Nat)
    (hmem : c ∈ cmKeys m) (d : Nat) :
    cmLookup (bumpColor (pruneZero (dropColor m c) c) c) d = cmLookup m d := by
  rw [mem_cmKeys_iff] at hmem
  obtain ⟨k, hk⟩ := Option.isSome_iff_exists.1 hmem
  have hget : cmGet m c = k := by simp [cmGet, hk]
  by_cases hdc : d = c
  · subst hdc
    have h1 : cmLookup (dropColor m d) d = some (k - 1) := by
      rw [dropColor, hget]
      exact cmLookup_cmSet_self m d (k - 1)
    have hg1 : cmGet (dropColor m d) d = k - 1 := by simp [cmGet, h1]
    by_cases hk1 : k - 1 = 0
    · have h2 : cmLookup (pruneZero (dropColor m d) d) d = none := by
        rw [pruneZero, if_pos (hg1.trans hk1)]
        exact cmLookup_cmErase_self _ _
      have hg2 : cmGet (pruneZero (dropColor m d) d) d = 0 := by
        simp [cmGet, h2]
      have h3 : cmLookup (bumpColor (pruneZero (dropColor m d) d) d) d =
          some 1 := by
        rw [bumpColor, hg2]
        exact cmLookup_cmSet_self _ d 1
      rw [h3, hk]
      congr 1
      omega
    · have h2 : pruneZero (dropColor m d) d = dropColor m d := by
        rw [pruneZero, if_neg (by rw [hg1]; exact hk1)]
      have h3 : cmLookup (bumpColor (pruneZero (dropColor m d) d) d) d =
          some (k - 1 + 1) := by
        rw [h2, bumpColor, hg1]
        exact cmLookup_cmSet_self _ d _
      rw [h3, hk]
      congr 1
      omega
  · have h1 : cmLookup (dropColor m c) d = cmLookup m d := by
      rw [dropColor]
      exact cmLookup_cmSet_ne _ _ _ _ hdc
    have h2 : cmLookup (pruneZero (dropColor m c) c) d =
        cmLookup (dropColor m c) d := by
      rw [pruneZero]
      split
      · exact cmLookup_cmErase_ne _ _ _ hdc
      · rfl
    have h3 : cmLookup (bumpColor (pruneZero (dropColor m c) c) c) d =
        cmLookup (pruneZero (dropColor m c) c) d := by
      rw [bumpColor]
      exact cmLookup_cmSet_ne _ _ _ _ hdc
    rw [h3, h2, h1]

/-- The same, with both slots of a self-loop: two drops, two prunes and
two bumps of the same keyed color restore every lookup. -/
theorem recolor_cycle2_lookup (m : ColorMap) (c : Nat)
    (hmem : c ∈ cmKeys m) (d : Nat) :
    cmLookup (bumpColor (bumpColor (pruneZero (pruneZero
      (dropColor (dropColor m c) c) c) c) c) c) d = cmLookup m d := by
  rw [mem_cmKeys_iff] at hmem
  obtain ⟨k, hk⟩ := Option.isSome_iff_exists.1 hmem
  have hget : cmGet m c = k := by simp [cmGet, hk]
  by_cases hdc : d = c
  · subst hdc
    have h1 : cmLookup (dropColor m d) d = some (k - 1) := by
      rw [dropColor, hget]
      exact cmLookup_cmSet_self m d (k - 1)
    have hg1 : cmGet (dropColor m d) d = k - 1 := by simp [cmGet, h1]
    have h2 : cmLookup (dropColor (dropColor m d) d) d = some (k - 2) := by
      rw [dropColor, hg1, show k - 1 - 1 = k - 2 by ring]
      exact cmLookup_cmSet_self _ d _
    have hg2 : cmGet (dropColor (dropColor m d) d) d = k - 2 := by
      simp [cmGet, h2]
    by_cases hk2 : k - 2 = 0
    · have h3 : cmLookup (pruneZero (dropColor (dropColor m d) d) d) d =
          none := by
        rw [pruneZero, if_pos (hg2.trans hk2)]
        exact cmLookup_cmErase_self _ _
      have hg3 : cmGet (pruneZero (dropColor (dropColor m d) d) d) d = 0 := by
        simp [cmGet, h3]
      have h4 : cmLookup (pruneZero (pruneZero
          (dropColor (dropColor m d) d) d) d) d = none := by
        rw [pruneZero, if_pos hg3]
        exact cmLookup_cmErase_self _ _
      have hg4 : cmGet (pruneZero (pruneZero
          (dropColor (dropColor m d) d) d) d) d = 0 := by
        simp [cmGet, h4]
      have h5 : cmLookup (bumpColor (pruneZero (pruneZero
          (dropColor (dropColor m d) d) d) d) d) d = some 1 := by
        rw [bumpColor, hg4]
        exact cmLookup_cmSet_self _ d 1
      have hg5 : cmGet (bumpColor (pruneZero (pruneZero
          (dropColor (dropColor m d) d) d) d) d) d = 1 := by
        simp [cmGet, h5]
      have h6 : cmLookup (bumpColor (bumpColor (pruneZero (pruneZero
          (dropColor (dropColor m d) d) d) d) d) d) d = some 2 := by
        rw [bumpColor, hg5]
        exact cmLookup_cmSet_self _ d 2
      rw [h6, hk]
      congr 1
      omega
    · have h3 : pruneZero (dropColor (dropColor m d) d) d =
          dropColor (dropColor m d) d := by
        rw [pruneZero, if_neg (by rw [hg2]; exact hk2)]
      have h4 : pruneZero (pruneZero (dropColor (dropColor m d) d) d) d =
          dropColor (dropColor m d) d := by
        rw [h3, pruneZero, if_neg (by rw [hg2]; exact hk2)]
      have h5 : cmLookup (bumpColor (pruneZero (pruneZero
          (dropColor (dropColor m d) d) d) d) d) d = some (k - 1) := by
        rw [h4, bumpColor, hg2, show k - 2 + 1 = k - 1 by ring]
        exact cmLookup_cmSet_self _ d _
      have hg5 : cmGet (bumpColor (pruneZero (pruneZero
          (dropColor (dropColor m d) d) d) d) d) d = k - 1 := by
        simp [cmGet, h5]
      have h6 : cmLookup (bumpColor (bumpColor (pruneZero (pruneZero
          (dropColor (dropColor m d) d) d) d) d) d) d = some (k - 1 + 1) := by
        rw [bumpColor, hg5]
        exact cmLookup_cmSet_self _ d _
      rw [h6, hk]
      congr 1
      omega
  · have h1 : cmLookup (dropColor m c) d = cmLookup m d := by
      rw [dropColor]
      exact cmLookup_cmSet_ne _ _ _ _ hdc
    have h2 : cmLookup (dropColor (dropColor m c) c) d = cmLookup m d := by
      rw [dropColor]
      rw [cmLookup_cmSet_ne _ _ _ _ hdc]
      exact h1
    have hprune : ∀ m' : ColorMap, cmLookup (pruneZero m' c) d = cmLookup m' d := by
      intro m'
      rw [pruneZero]
      split
      · exact cmLookup_cmErase_ne _ _ _ hdc
      · rfl
    have hbump : ∀ m' : ColorMap, cmLookup (bumpColor m' c) d = cmLookup m' d := by
      intro m'
      rw [bumpColor]
      exact cmLookup_cmSet_ne _ _ _ _ hdc
    rw [hbump, hbump, hprune, hprune, h2]

/-! ## Shared consequences of a successful run -/

/-- A successful `edge_coloring` run on a built graph yields a consistent,
fully colored graph. -/
theorem edgeColoring_ok_cases (rs : List (Int × Int × Int × Int))
    (g' : Multigraph) (h : edgeColoring (buildGraph rs) = .ok g') :
    Consistent g' ∧ ∀ e ∈ g'.edges, e.color ≠ 0 := by
  obtain ⟨hz, hm⟩ := buildGraph_pristine rs
  cases hmd : maxDegree (buildGraph rs) with
  | none =>
    rw [edgeColoring, hmd] at h
    exact Except.noConfusion h
  | some delta =>
    obtain ⟨g'', hok, hcons, _, _, hcol⟩ := edgeColoring_spec _ delta hmd hz hm
    have hgg : g'' = g' := Except.ok.inj (hok.symm.trans h)
    subst hgg
    exact ⟨hcons, hcol⟩

/-! ## The claims -/

/-- C1: the spec claims at most Δ+1 distinct colors after
`edge_coloring()`.  On `failingInput` the maximum degree is 3, yet the run
uses 5 distinct colors, exceeding Δ+1 = 4: the greedy pass allocates a
fifth color instead of recoloring, so the Vizing bound announced by the
specification is violated by the code. -/
theorem c1_bound_violated :
    maxDegree (buildGraph failingInput) = some 3 ∧
      (edgeColoring (buildGraph failingInput)).toOption.map
        (fun G => (G.edges.map Edge.color).toFinset.card) = some 5 ∧
      ¬(5 ≤ 3 + 1) := by decide

/-- C2: the spec claims every edge with an empty `available` set is
handled by the recoloring procedure inside the Δ+1 palette.  On
`failingInput` (Δ = 3, palette `{1,…,4}`) the ninth edge has empty
`available` and the code instead assigns the fresh color 5 and expands
the palette to `{1,…,5}` — palette expansion is the default (indeed only)
resolution, and `recolor_edges` is never invoked by `edge_coloring`. -/
theorem c2_fallback_is_palette_expansion :
    (edgeColoring (buildGraph failingInput)).toOption.map
        (fun G => (G.edges.map Edge.color, G.colors.card)) =
      some ([1, 2, 3, 1, 2, 4, 1, 2, 5], 5) ∧
      (5 : Nat) ∉ Finset.Icc 1 (3 + 1) := by decide

/-- C3: after a successful `edge_coloring()` run the coloring is proper —
distinct edges sharing an endpoint have different colors. -/
theorem edge_coloring_proper (rs : List (Int × Int × Int × Int))
    (es : List Edge)
    (h : (edgeColoring (buildGraph rs)).toOption.map Multigraph.edges =
      some es) :
    ∀ i, ∀ hi : i < es.length, ∀ j, ∀ hj : j < es.length,
      i ≠ j → sharesEndpoint es[i] es[j] → es[i].color ≠ es[j].color := by
  cases hres : edgeColoring (buildGraph rs) with
  | error s =>
    rw [hres] at h
    simp [Except.toOption] at h
  | ok g' =>
    have h2 : g'.edges = es := by
      rw [hres] at h
      simpa [Except.toOption] using h
    subst h2
    obtain ⟨hcons, hcol⟩ := edgeColoring_ok_cases rs g' hres
    intro i hi j hj hne hsh
    exact hcons.proper i hi j hj hne hsh
      (hcol _ (List.getElem_mem hi)) (hcol _ (List.getElem_mem hj))

/-- Witness for C3: on the triangle the run yields colors 1, 2, 3 and the
two edges at vertex 2 indeed get different colors. -/
theorem edge_coloring_proper_witness :
    ((edgeColoring (buildGraph triangleInput)).toOption.map Multigraph.edges =
        some triangleEdges) ∧
      (triangleEdges.get ⟨0, by decide⟩).color ≠
        (triangleEdges.get ⟨1, by decide⟩).color := by
  have h : (edgeColoring (buildGraph triangleInput)).toOption.map
      Multigraph.edges = some triangleEdges := by decide
  exact ⟨h, edge_coloring_proper triangleInput triangleEdges h 0 (by decide) 1
    (by decide) (by decide) (by decide)⟩

/-- C4: the spec claims every recolor step of the recoloring procedure
keeps both endpoints' incidence counts consistent with the edge colors.
Running `recolor_edges` (with `Edge.other` modelled from §4.2, since the
method is absent from the source) on the colored path 1–2–3 recolors the
edge (2,3) from 2 to 1 by writing the `color` field directly: afterwards
one edge of color 1 is incident to vertex 3 (`countInc … 3 1 = 1`) while
vertex 3's dict still counts zero for color 1, so the invariant
`edge.color == c → both endpoints count c` is broken. -/
theorem c4_recolor_breaks_counts :
    (edgeColoring (buildGraph pathInput)).toOption.map (fun G =>
      (recolorEdges G 1 3 1 10).toOption.map (fun G2 =>
        (G2.edges.map Edge.color, countInc G2.edges 3 1,
          cmGet (G2.vcolors 3) 1))) =
      some (some ([1, 1], 1, 0)) ∧ (1 : Int) ≠ 0 := by decide

/-- Counterexample for C5: on a graph with no vertices `edge_coloring()`
does not yield Δ = 0 — the `max` over the empty degree sequence raises,
modelled as an error result. -/
theorem c5_empty_graph_errors :
    maxDegree (buildGraph []) = none ∧
      edgeColoring (buildGraph []) = .error "max() arg is an empty sequence" :=
  ⟨rfl, rfl⟩

/-- C5 (amended): whenever the graph has at least one vertex, the Δ
computed by `edge_coloring` is exactly the maximum vertex degree (an upper
bound that is attained); on a vertexless graph `edge_coloring` errors
instead of yielding 0. -/
theorem c5_max_degree (g : Multigraph) (delta : Nat)
    (h : maxDegree g = some delta) :
    ((∀ v ∈ g.vertexIds, degreeOf g v ≤ delta) ∧
        ∃ v ∈ g.vertexIds, degreeOf g v = delta) ∧
      ∀ g2 : Multigraph, g2.vertexIds = [] →
        edgeColoring g2 = .error "max() arg is an empty sequence" := by
  refine ⟨maxDegree_spec g delta h, ?_⟩
  intro g2 hg2
  simp [edgeColoring, maxDegree, hg2]

/-- Witness for C5: the path 1–2–3 has `maxDegree = some 2`, attained at
vertex 2, and the empty graph errors. -/
theorem c5_max_degree_witness :
    maxDegree (buildGraph pathInput) = some 2 ∧
      ((∀ v ∈ (buildGraph pathInput).vertexIds,
          degreeOf (buildGraph pathInput) v ≤ 2) ∧
        ∃ v ∈ (buildGraph pathInput).vertexIds,
          degreeOf (buildGraph pathInput) v = 2) ∧
      edgeColoring Multigraph.empty = .error "max() arg is an empty sequence" := by
  have h : maxDegree (buildGraph pathInput) = some 2 := by decide
  exact ⟨h, (c5_max_degree (buildGraph pathInput) 2 h).1,
    (c5_max_degree (buildGraph pathInput) 2 h).2 Multigraph.empty rfl⟩

/-- Counterexample for C6: after coloring the single self-loop at
vertex 1, the sum of vertex 1's incidence counts is 2 while its degree is
1 — `color_with` increments the same dict once per endpoint slot, so a
self-loop is counted twice but contributes only one incident edge. -/
theorem c6_self_loop_counterexample :
    (edgeColoring (buildGraph selfLoopInput)).toOption.map
        (fun G => (cmSum (G.vcolors 1), (degreeOf G 1 : Int))) = some (2, 1) ∧
      (2 : Int) ≠ 1 := by decide

/-- C6 (amended): after a successful `edge_coloring()` run, each vertex's
incidence counts sum to its degree **plus the number of its self-loop
edges**; in particular the sum equals the degree exactly when the vertex
has no self-loop. -/
theorem c6_sum_counts (rs : List (Int × Int × Int × Int)) (vid : Int)
    (s : Int) (dl : Nat × Nat)
    (h : (edgeColoring (buildGraph rs)).toOption.map
        (fun G => (cmSum (G.vcolors vid),
          (degreeOf G vid, selfLoopsAt G.edges vid))) = some (s, dl)) :
    s = (dl.1 : Int) + (dl.2 : Int) := by
  cases hres : edgeColoring (buildGraph rs) with
  | error msg =>
    rw [hres] at h
    simp [Except.toOption] at h
  | ok g' =>
    rw [hres] at h
    simp only [Except.toOption] at h
    have h2 : (cmSum (g'.vcolors vid),
        (degreeOf g' vid, selfLoopsAt g'.edges vid)) = (s, dl) := by
      simpa using h
    obtain ⟨hcons, hcol⟩ := edgeColoring_ok_cases rs g' hres
    have hsum := hcons.sums vid
    rw [countColored_of_colored g'.edges vid hcol] at hsum
    have hdeg : degreeOf g' vid =
        (g'.edges.filter (fun e => e.x == vid || e.y == vid)).length := rfl
    have hs : cmSum (g'.vcolors vid) = s := congrArg Prod.fst h2
    have hd : degreeOf g' vid = dl.1 :=
      congrArg Prod.fst (congrArg Prod.snd h2)
    have hl : selfLoopsAt g'.edges vid = dl.2 :=
      congrArg Prod.snd (congrArg Prod.snd h2)
    rw [← hs, ← hd, ← hl, hsum, hdeg]
    push_cast
    ring

/-- Witness for C6 (amended): on the self-loop graph the sum is 2, the
degree 1 and the loop count 1, and 2 = 1 + 1. -/
theorem c6_sum_counts_witness :
    ((edgeColoring (buildGraph selfLoopInput)).toOption.map
        (fun G => (cmSum (G.vcolors 1),
          (degreeOf G 1, selfLoopsAt G.edges 1))) = some (2, (1, 1))) ∧
      (2 : Int) = ((1 : Nat) : Int) + ((1 : Nat) : Int) := by
  have h : (edgeColoring (buildGraph selfLoopInput)).toOption.map
      (fun G => (cmSum (G.vcolors 1),
        (degreeOf G 1, selfLoopsAt G.edges 1))) = some (2, (1, 1)) := by decide
  exact ⟨h, c6_sum_counts selfLoopInput 1 2 (1, 1) h⟩

/-- C7: `color_with` called with the color the edge already carries
leaves every vertex's color dict unchanged (every lookup is preserved)
and the edge itself unchanged.  The key-membership hypotheses are the
documented invariant at the call site: a colored edge contributes at
least one count of its color at each endpoint, so the color is keyed. -/
theorem recolor_idempotent (g : Multigraph) (e : Edge) (c : Nat)
    (hcol : e.color = c) (h0 : c ≠ 0)
    (hx : c ∈ cmKeys (g.vcolors e.x)) (hy : c ∈ cmKeys (g.vcolors e.y)) :
    (∀ w d, cmLookup ((colorWith g e c).1.vcolors w) d =
      cmLookup (g.vcolors w) d) ∧ (colorWith g e c).2 = e := by
  have hc : e.color ≠ 0 := by rw [hcol]; exact h0
  constructor
  · intro w d
    by_cases hwx : w = e.x
    · by_cases hxy : e.x = e.y
      · subst hwx
        rw [colorWith_vcolors_colored_loop g e c hc hxy, hcol]
        exact recolor_cycle2_lookup (g.vcolors e.x) c hx d
      · subst hwx
        rw [colorWith_vcolors_colored_left g e c hc hxy, hcol]
        exact recolor_cycle_lookup (g.vcolors e.x) c hx d
    · by_cases hwy : w = e.y
      · subst hwy
        have hxy : e.x ≠ e.y := fun hxy2 => hwx hxy2.symm
        rw [colorWith_vcolors_colored_right g e c hc hxy, hcol]
        exact recolor_cycle_lookup (g.vcolors e.y) c hy d
      · rw [colorWith_vcolors_colored_other g e c hc w hwx hwy]
  · rw [colorWith_snd, ← hcol]

/-- Witness for C7: recoloring the colored edge of `recolorGraph` with
its own color 1 changes no lookup at either endpoint and returns the
edge unchanged. -/
theorem recolor_idempotent_witness :
    (recolorEdge.color = 1 ∧ (1 : Nat) ≠ 0 ∧
        1 ∈ cmKeys (recolorGraph.vcolors recolorEdge.x) ∧
        1 ∈ cmKeys (recolorGraph.vcolors recolorEdge.y)) ∧
      cmLookup ((colorWith recolorGraph recolorEdge 1).1.vcolors 2) 1 =
        cmLookup (recolorGraph.vcolors 2) 1 ∧
      (colorWith recolorGraph recolorEdge 1).2 = recolorEdge := by
  refine ⟨⟨rfl, by decide, by decide, by decide⟩, ?_, ?_⟩
  · exact (recolor_idempotent recolorGraph recolorEdge 1 rfl (by decide)
      (by decide) (by decide)).1 2 1
  · exact (recolor_idempotent recolorGraph recolorEdge 1 rfl (by decide)
      (by decide) (by decide)).2

/-- C8: `edge_coloring()` is deterministic — two runs on the same input
list yield the same list of edge colors — and every direct assignment
uses the minimum of the intersection of the endpoints' missing-color
sets (a color in the intersection that is a lower bound of it). -/
theorem edge_coloring_deterministic :
    (∀ (rs : List (Int × Int × Int × Int)) (cs1 cs2 : List Nat),
      (edgeColoring (buildGraph rs)).toOption.map
        (fun G => G.edges.map Edge.color) = some cs1 →
      (edgeColoring (buildGraph rs)).toOption.map
        (fun G => G.edges.map Edge.color) = some cs2 →
      cs1 = cs2) ∧
    (∀ (g : Multigraph) (i : Nat) (e : Edge), g.edges[i]? = some e →
      (missingColorsAt g e.x ∩ missingColorsAt g e.y).Nonempty →
      ∃ c, colorStep g i = .ok (setEdgeColor g i c) ∧
        c ∈ missingColorsAt g e.x ∩ missingColorsAt g e.y ∧
        ∀ d ∈ missingColorsAt g e.x ∩ missingColorsAt g e.y, c ≤ d) := by
  constructor
  · intro rs cs1 cs2 h1 h2
    rw [h1] at h2
    exact Option.some.inj h2
  · intro g i e he hne
    refine ⟨(missingColorsAt g e.x ∩ missingColorsAt g e.y).min' hne, ?_,
      Finset.min'_mem _ hne, fun d hd => Finset.min'_le _ d hd⟩
    simp only [colorStep, he]
    rw [dif_pos hne]

/-- Witness for C8: two triangle runs agree, and on `stepGraph` the first
edge is assigned a minimum element of the missing-color intersection. -/
theorem edge_coloring_deterministic_witness :
    ([1, 2, 3] = [1, 2, 3] ∧
        stepGraph.edges[0]? = some (⟨1, 1, 2, 1, 0⟩ : Edge)) ∧
      ∃ c, colorStep stepGraph 0 = .ok (setEdgeColor stepGraph 0 c) ∧
        c ∈ missingColorsAt stepGraph 1 ∩ missingColorsAt stepGraph 2 ∧
        ∀ d ∈ missingColorsAt stepGraph 1 ∩ missingColorsAt stepGraph 2,
          c ≤ d := by
  refine ⟨⟨?_, by decide⟩, ?_⟩
  · exact edge_coloring_deterministic.1 triangleInput [1, 2, 3] [1, 2, 3]
      (by decide) (by decide)
  · exact edge_coloring_deterministic.2 stepGraph 0 ⟨1, 1, 2, 1, 0⟩
      (by decide) (by decide)

/-- C9: after a successful `edge_coloring()` run every edge's color is a
positive integer — the sentinel 0 never survives. -/
theorem edge_coloring_colors_positive (rs : List (Int × Int × Int × Int))
    (es : List Edge)
    (h : (edgeColoring (buildGraph rs)).toOption.map Multigraph.edges =
      some es) :
    ∀ e ∈ es, 1 ≤ e.color := by
  cases hres : edgeColoring (buildGraph rs) with
  | error msg =>
    rw [hres] at h
    simp [Except.toOption] at h
  | ok g' =>
    have h2 : g'.edges = es := by
      rw [hres] at h
      simpa [Except.toOption] using h
    subst h2
    obtain ⟨hcons, hcol⟩ := edgeColoring_ok_cases rs g' hres
    intro e he
    rcases hcons.edge_colors e he with hz | hmem
    · exact absurd hz (hcol e he)
    · exact hcons.palette_pos _ hmem

/-- Witness for C9: on the triangle the first edge's color 1 is
positive. -/
theorem edge_coloring_colors_positive_witness :
    ((edgeColoring (buildGraph triangleInput)).toOption.map Multigraph.edges =
        some triangleEdges) ∧
      1 ≤ (⟨1, 1, 2, 1, 1⟩ : Edge).color := by
  have h : (edgeColoring (buildGraph triangleInput)).toOption.map
      Multigraph.edges = some triangleEdges := by decide
  exact ⟨h, edge_coloring_colors_positive triangleInput triangleEdges h
    ⟨1, 1, 2, 1, 1⟩ (by decide)⟩

/-- C10: on every nonempty input list (equivalently, every built graph
with at least one vertex) `edge_coloring()` returns normally — the
fallback `max(palette)+1` always succeeds, so no error of any kind is
raised. -/
theorem edge_coloring_total (rs : List (Int × Int × Int × Int))
    (h : rs ≠ []) : ∃ g', edgeColoring (buildGraph rs) = .ok g' := by
  obtain ⟨hz, hm⟩ := buildGraph_pristine rs
  obtain ⟨delta, hmd⟩ :=
    maxDegree_isSome_of_ne _ (buildGraph_vertexIds_ne rs h)
  obtain ⟨g', hok, _⟩ := edgeColoring_spec _ delta hmd hz hm
  exact ⟨g', hok⟩

/-- Witness for C10: the path input is nonempty and its run returns
`ok`. -/
theorem edge_coloring_total_witness :
    pathInput ≠ [] ∧ ∃ g', edgeColoring (buildGraph pathInput) = .ok g' :=
  have h : pathInput ≠ [] := by decide
  ⟨h, edge_coloring_total pathInput h⟩
